import Mathlib

/-!
# Verification of the passport bit-flip attack (`passport_attack_2.py`)
and the passport-to-clone weight transplant
(`experiments/classification_private.py`).

Scale/bias entries of the network's batch-norm layers are embedded as
integers (only their sign and exact value matter to the claims under
study); index tensors are lists of naturals; `torch.sign` is embedded
as `torchSign` with its convention `sign 0 = 0`.
-/

set_option autoImplicit false

namespace PassportAttack

/-! ## Definitions: the bit-flip attack of `run_attack_2` -/

/-- `torch.sign` on an embedded scalar: `1` for positive, `-1` for
negative, `0` for zero. -/
def torchSign (x : Int) : Int :=
  if 0 < x then 1 else if x < 0 then -1 else 0

/-- Auxiliary for the per-layer sign flip: walks `scale` keeping the
running channel index `i`, emitting at each channel the entry of
`newsign` that the attack writes back into `w.data`
(`origsign = w.data.sign(); newsign[widxs] *= -1; w.data.copy_(newsign)`,
`passport_attack_2.py` lines 272-280). -/
def flipAux (i : Nat) (scale : List Int) (widxs : List Nat) : List Int :=
  match scale with
  | [] => []
  | x :: xs =>
      (if i ∈ widxs then -torchSign x else torchSign x) :: flipAux (i + 1) xs widxs

/-- One iteration of the flip loop applied to one layer's `bn.weight`
vector `scale` with the layer-local selected channel indices `widxs`:
the new value of `w.data`. -/
def flipLayer (scale : List Int) (widxs : List Nat) : List Int :=
  flipAux 0 scale widxs

/-- Number of positions where two sign vectors agree, i.e. the sum of
the boolean tensor `(a == b)` in
`((w.data.sign() == origsign).float().mean())`. -/
def matchCount : List Int → List Int → Nat
  | a :: as, b :: bs => (if a = b then 1 else 0) + matchCount as bs
  | _, _ => 0

/-- Per-layer index consumption of the flip loop: for each layer size in
order, keep the indices with `(idx - size) < 0` as that layer's local
indices, and continue with `idxs[(idxs - size) >= 0] - size`
(`passport_attack_2.py` lines 266-285).  Returns the per-layer local
index lists and the leftover pool after the last layer. -/
def consume : List Nat → List Nat → List (List Nat) × List Nat
  | [], idxs => ([], idxs)
  | size :: rest, idxs =>
      let here := idxs.filter (fun i => i < size)
      let there := (idxs.filter (fun i => ¬ i < size)).map (fun i => i - size)
      let r := consume rest there
      (here :: r.1, r.2)

/-- State carried out of the flip loop: the new per-layer scale vectors,
the leftover index pool, and the running `sim` accumulator. -/
structure AttackResult where
  scales : List (List Int)
  leftover : List Nat
  simSum : ℚ
  deriving DecidableEq

/-- The flip loop of `run_attack_2` (`passport_attack_2.py` lines
264-285) over the ordered `conv_weights_to_reset` scale vectors and the
selected global indices `idxs`: per layer it filters the local indices,
records `origsign`, writes `newsign` back, accumulates
`(w.data.sign() == origsign).float().mean()` into `sim`, and shifts the
remaining indices. -/
def attackLoop : List (List Int) → List Nat → AttackResult
  | [], idxs => ⟨[], idxs, 0⟩
  | scale :: rest, idxs =>
      let size := scale.length
      let widxs := idxs.filter (fun i => i < size)
      let origsign := scale.map torchSign
      let newscale := flipLayer scale widxs
      let simHere : ℚ := (matchCount (newscale.map torchSign) origsign : ℚ) / (size : ℚ)
      let idxs2 := (idxs.filter (fun i => ¬ i < size)).map (fun i => i - size)
      let r := attackLoop rest idxs2
      ⟨newscale :: r.scales, r.leftover, simHere + r.simSum⟩

/-- The reported signature similarity `sim / len(conv_weights_to_reset)`
(`passport_attack_2.py` line 287). -/
def attackSim (scales : List (List Int)) (idxs : List Nat) : ℚ :=
  (attackLoop scales idxs).simSum / (scales.length : ℚ)

/-- `int(total_weight_size * args.flipperc)`: the number of selected
indices (floor of the product; `flipperc` lies in `[0, 1]`). -/
def numSelected (total : Nat) (frac : ℚ) : Nat :=
  (⌊(total : ℚ) * frac⌋).toNat

/-- `idxs = randidxs[:int(total_weight_size * args.flipperc)]`
(`passport_attack_2.py` lines 261-262): the selected global index list,
as a function of the permutation `torch.randperm` returned.  The code
passes no seed or generator to `torch.randperm`. -/
def selectIdxs (perm : List Nat) (frac : ℚ) : List Nat :=
  perm.take (numSelected perm.length frac)

/-- Offset of layer `l` in the global index space: sum of the channel
counts of the layers before it. -/
def layerOffset (sizes : List Nat) (l : Nat) : Nat :=
  ((sizes.take l).sum)

/-- Whether a global index `g` falls in the contiguous range of the
layer whose offset is `off` and channel count is `c`. -/
def inLayerRange (off c g : Nat) : Bool :=
  decide (off ≤ g) && decide (g < off + c)

/-- The per-layer match fraction the spec describes: the fraction of
channels of one layer whose scale sign after the flip equals the scale
sign recorded immediately before the flip. -/
def perLayerFlipFrac (scale : List Int) (widxs : List Nat) : ℚ :=
  (matchCount ((flipLayer scale widxs).map torchSign) (scale.map torchSign) : ℚ)
    / (scale.length : ℚ)

/-- The similarity as the spec words it: the arithmetic mean, over all
attacked layers, of `perLayerFlipFrac`, with each layer receiving the
local indices the global partition (`consume`) assigns to it. -/
def specSim (scales : List (List Int)) (idxs : List Nat) : ℚ :=
  (((scales.zip (consume (scales.map List.length) idxs).1).map
      (fun p => perLayerFlipFrac p.1 p.2)).sum) / (scales.length : ℚ)

/-! ## Definitions: model state in `run_attack_2` setup and fine-tuning -/

/-- A parameter tensor: its values and its `requires_grad` flag. -/
structure PTensor where
  data : List Int
  requiresGrad : Bool
  deriving DecidableEq, Inhabited

/-- One feature block of the attacked clone model: the convolution
weight, the batch-norm affine pair `bn.weight` / `bn.bias`, and whether
the block's index is in `plkeys` (i.e. the corresponding layer of the
passport model carries a passport). -/
structure ModelLayer where
  convWeight : PTensor
  bnWeight : PTensor
  bnBias : PTensor
  passport : Bool
  deriving DecidableEq, Inhabited

/-- `param.requires_grad_(False)` for every parameter of the model
(`passport_attack_2.py` lines 172-173). -/
def freezeAll (m : List ModelLayer) : List ModelLayer :=
  m.map (fun l =>
    ⟨⟨l.convWeight.data, false⟩, ⟨l.bnWeight.data, false⟩, ⟨l.bnBias.data, false⟩,
      l.passport⟩)

/-- Lines 179-186: for each `fidx` in `plkeys`, copy the passport
model's `get_scale()` / `get_bias()` into the clone's `bn.weight` /
`bn.bias` and turn `requires_grad` back on for both.  `pp` carries, per
layer, the passport model's `(get_scale(), get_bias())` values; entries
at non-passport layers are ignored, exactly as the loop only visits
`plkeys`. -/
def loadPassportParams : List ModelLayer → List (List Int × List Int) → List ModelLayer
  | [], _ => []
  | l :: ls, pp =>
      match pp with
      | [] => l :: ls
      | p :: ps =>
          (if l.passport then
            { l with bnWeight := ⟨p.1, true⟩, bnBias := ⟨p.2, true⟩ }
           else l) :: loadPassportParams ls ps

/-- Lines 228-241: for each `fidx` in `plkeys`, `bn.bias.data.zero_()`
and `requires_grad_(True)` on both affine tensors (the `bn.weight`
tensors are also collected into `conv_weights_to_reset`, modelled
separately by `attackScales`). -/
def zeroBiasStep (m : List ModelLayer) : List ModelLayer :=
  m.map (fun l =>
    if l.passport then
      { l with
        bnWeight := ⟨l.bnWeight.data, true⟩,
        bnBias := ⟨l.bnBias.data.map (fun _ => 0), true⟩ }
    else l)

/-- The whole parameter setup of `run_attack_2` before the flip loop:
freeze everything, copy the passport scale/bias in, then the
bias-zeroing pass. -/
def attackSetup (m : List ModelLayer) (pp : List (List Int × List Int)) :
    List ModelLayer :=
  zeroBiasStep (loadPassportParams (freezeAll m) pp)

/-- The ordered `conv_weights_to_reset` list: the `bn.weight` data of
the passport-bearing layers, in model order. -/
def attackScales (m : List ModelLayer) : List (List Int) :=
  (m.filter (fun l => l.passport)).map (fun l => l.bnWeight.data)

/-- One SGD update on a tensor with an arbitrary gradient: PyTorch's
optimizer skips parameters whose grad is `None`, and `loss.backward()`
never populates a gradient for a tensor with `requires_grad == False`,
so a frozen tensor keeps its values. -/
def sgdTensor (t : PTensor) (g : List Int) : PTensor :=
  if t.requiresGrad then ⟨(t.data.zip g).map (fun p => p.1 - p.2), true⟩ else t

/-- Per-layer gradients for one optimizer step: for the convolution
weight, `bn.weight` and `bn.bias` respectively. -/
structure LayerGrad where
  convGrad : List Int
  bnWeightGrad : List Int
  bnBiasGrad : List Int

/-- One fine-tuning optimizer step over the model with arbitrary
per-layer gradients. -/
def trainStep : List ModelLayer → List LayerGrad → List ModelLayer
  | [], _ => []
  | l :: ls, gs =>
      match gs with
      | [] => l :: ls
      | g :: gsr =>
          ⟨sgdTensor l.convWeight g.convGrad,
           sgdTensor l.bnWeight g.bnWeightGrad,
           sgdTensor l.bnBias g.bnBiasGrad,
           l.passport⟩ :: trainStep ls gsr

/-- A whole fine-tuning run: any number of optimizer steps with
arbitrary gradients. -/
def trainRun (m : List ModelLayer) (gss : List (List LayerGrad)) : List ModelLayer :=
  gss.foldl trainStep m

/-- Frame relation between a tensor before and after some update steps:
the `requires_grad` flag is preserved, and a frozen tensor is preserved
entirely. -/
def tensorFrame (t after : PTensor) : Prop :=
  after.requiresGrad = t.requiresGrad ∧ (t.requiresGrad = false → after = t)

/-- Frame relation between a model layer before and after update steps:
the passport flag is preserved and each of its three tensors satisfies
`tensorFrame`. -/
def layerFrame (l after : ModelLayer) : Prop :=
  after.passport = l.passport ∧
  tensorFrame l.convWeight after.convWeight ∧
  tensorFrame l.bnWeight after.bnWeight ∧
  tensorFrame l.bnBias after.bnBias

/-! ## Definitions: passport-to-clone transplant
(`classification_private.py`, `transfer_learning`, lines 191-233) -/

/-- A block of the plain clone model (`ConvBlock`): its state dict has
the convolution weight, the bn affine pair, and the bn running
statistics. -/
structure CloneBlock where
  convWeight : List Int
  bnWeight : List Int
  bnBias : List Int
  bnRunningMean : List Int
  deriving DecidableEq, Inhabited

/-- A block of the source (passport) model.  `normal` blocks have the
same state-dict keys as a `CloneBlock`.  Modelled from the spec: a
passport-bearing block's state dict has no `bn.weight` / `bn.bias`
entries (the affine parameters are derived, "passport model no scale
and bias"), it instead stores its keyed passport data from which
`get_scale()` / `get_bias()` are computed; here the block carries those
computed values directly. -/
inductive SourceBlock where
  | normal (convWeight bnWeight bnBias bnRunningMean : List Int)
  | passport (convWeight bnRunningMean scaleValue biasValue : List Int)
  deriving DecidableEq, Inhabited

/-- Whether a source block is passport-bearing. -/
def SourceBlock.isPassport : SourceBlock → Bool
  | .normal _ _ _ _ => false
  | .passport _ _ _ _ => true

/-- Modelled from the spec: `get_scale()` of a signature layer returns
the derived scale vector (for a normal block, its stored affine
weight). -/
def SourceBlock.getScale : SourceBlock → List Int
  | .normal _ w _ _ => w
  | .passport _ _ s _ => s

/-- Modelled from the spec: `get_bias()` of a signature layer returns
the derived bias vector (for a normal block, its stored affine bias). -/
def SourceBlock.getBias : SourceBlock → List Int
  | .normal _ _ b _ => b
  | .passport _ _ _ b => b

/-- `tl_m.load_state_dict(self_m.state_dict())` (strict): succeeds and
copies every entry when the key sets coincide (source block normal);
raises — modelled as `none` — when the source is a passport block whose
parameter set differs. -/
def strictLoadBlock : SourceBlock → Option CloneBlock
  | .normal c w b m => some ⟨c, w, b, m⟩
  | .passport _ _ _ _ => none

/-- `tl_m.load_state_dict(self_m.state_dict(), False)`: copies only the
keys both dicts share ("load conv weight, bn running mean"); the
clone's affine pair is left as it was. -/
def nonStrictLoadBlock (c : CloneBlock) : SourceBlock → CloneBlock
  | .normal cw w b m => ⟨cw, w, b, m⟩
  | .passport cw m _ _ => ⟨cw, c.bnWeight, c.bnBias, m⟩

/-- The per-module fallback body (`classification_private.py` lines
196-204): try the strict per-module load; on failure, non-strict load
plus explicit reconstruction
`tl_m.bn.weight.data.copy_(self_m.get_scale())`,
`tl_m.bn.bias.data.copy_(self_m.get_bias())`. -/
def transferBlock (c : CloneBlock) (s : SourceBlock) : CloneBlock :=
  match strictLoadBlock s with
  | some c' => c'
  | none =>
      let c1 := nonStrictLoadBlock c s
      ⟨c1.convWeight, s.getScale, s.getBias, c1.bnRunningMean⟩

/-- `tl_model.load_state_dict(self.model.state_dict())` (strict, whole
model): succeeds only when every block loads strictly and the models
have the same block list length. -/
def strictLoadModel : List CloneBlock → List SourceBlock → Option (List CloneBlock)
  | [], [] => some []
  | _ :: _, [] => none
  | [], _ :: _ => none
  | _ :: cs, s :: ss =>
      match strictLoadBlock s, strictLoadModel cs ss with
      | some c', some rest => some (c' :: rest)
      | _, _ => none

/-- The transplant of `transfer_learning` (lines 191-204): try the
whole-model strict load; on the exception, fall back to the per-module
copy loop over `zip(tl_model.features, self.model.features)`. -/
def transferLearningLoad (cs : List CloneBlock) (ss : List SourceBlock) :
    List CloneBlock :=
  match strictLoadModel cs ss with
  | some r => r
  | none => List.zipWith transferBlock cs ss

end PassportAttack

namespace PassportAttack

/-! ## Basic lemmas -/

theorem torchSign_torchSign (x : Int) : torchSign (torchSign x) = torchSign x := by
  unfold torchSign; split_ifs <;> omega

theorem torchSign_neg (x : Int) : torchSign (-x) = -torchSign x := by
  unfold torchSign; split_ifs <;> omega

theorem flipAux_nil (i : Nat) (widxs : List Nat) : flipAux i [] widxs = [] := rfl

theorem flipAux_cons (i : Nat) (x : Int) (xs : List Int) (widxs : List Nat) :
    flipAux i (x :: xs) widxs =
      (if i ∈ widxs then -torchSign x else torchSign x) :: flipAux (i + 1) xs widxs := rfl

theorem flipAux_length (i : Nat) (scale : List Int) (widxs : List Nat) :
    (flipAux i scale widxs).length = scale.length := by
  induction scale generalizing i with
  | nil => rfl
  | cons x xs ih => simp [flipAux_cons, ih]

theorem flipLayer_length (scale : List Int) (widxs : List Nat) :
    (flipLayer scale widxs).length = scale.length :=
  flipAux_length 0 scale widxs

theorem flipAux_getD (i j : Nat) (scale : List Int) (widxs : List Nat)
    (hj : j < scale.length) :
    (flipAux i scale widxs).getD j 0 =
      if (i + j) ∈ widxs then -torchSign (scale.getD j 0) else torchSign (scale.getD j 0) := by
  induction scale generalizing i j with
  | nil => simp at hj
  | cons x xs ih =>
      cases j with
      | zero =>
          rw [flipAux_cons]
          simp only [List.getD_cons_zero, Nat.add_zero]
      | succ j =>
          have hj' : j < xs.length := by simpa using hj
          have h2 := ih (i + 1) j hj'
          have hidx : i + 1 + j = i + (j + 1) := by omega
          rw [flipAux_cons]
          simp only [List.getD_cons_succ]
          rw [← hidx]
          exact h2

theorem flipLayer_getD (j : Nat) (scale : List Int) (widxs : List Nat)
    (hj : j < scale.length) :
    (flipLayer scale widxs).getD j 0 =
      if j ∈ widxs then -torchSign (scale.getD j 0) else torchSign (scale.getD j 0) := by
  have h := flipAux_getD 0 j scale widxs hj
  simpa [flipLayer] using h

theorem flipAux_all_mem (i : Nat) (scale : List Int) (widxs : List Nat)
    (h : ∀ j, j < scale.length → (i + j) ∈ widxs) :
    flipAux i scale widxs = scale.map (fun x => -torchSign x) := by
  induction scale generalizing i with
  | nil => rfl
  | cons x xs ih =>
      rw [flipAux_cons]
      have h0 : i ∈ widxs := by simpa using h 0 (by simp)
      have htail : ∀ j, j < xs.length → (i + 1 + j) ∈ widxs := by
        intro j hj
        have := h (j + 1) (by simpa using Nat.succ_lt_succ hj)
        have hidx : i + 1 + j = i + (j + 1) := by omega
        rwa [hidx]
      rw [if_pos h0, ih (i + 1) htail]
      rfl

theorem flipLayer_full (scale : List Int) :
    flipLayer scale (List.range scale.length) = scale.map (fun x => -torchSign x) := by
  apply flipAux_all_mem
  intro j hj
  simpa using hj

/-! ## Claim C1 -/

/-- Claim C1 counterexample: on the layer scale vector `[5, -3]` with
selected local channel `{0}`, the flip loop writes `[-1, -1]` into
`w.data` — the magnitude of the selected entry is not kept (`5 ↦ -1`,
not `-5`) and the non-selected entry does not keep its original value
(`-3 ↦ -1`), so the update is not `scale[local_idx] *= -1`. -/
theorem C1_counterexample :
    flipLayer [5, -3] [0] = [-1, -1] ∧ flipLayer [5, -3] [0] ≠ [-5, -3] := by
  decide

/-- Claim C1 (amended): the flip loop replaces each scale entry by its
sign (`w.data.copy_(newsign)` with `newsign = sign(w)` negated at the
selected channels): at a selected channel the entry becomes the
negation of its original sign and at a non-selected channel it becomes
its original sign, so the sign pattern behaves as the claim states but
magnitudes are reset to `1` (and `0` entries stay `0`) rather than
kept. -/
theorem C1_flip_writes_negated_signs (scale : List Int) (widxs : List Nat) (j : Nat)
    (hj : j < scale.length) :
    (flipLayer scale widxs).getD j 0 =
      (if j ∈ widxs then -torchSign (scale.getD j 0) else torchSign (scale.getD j 0)) ∧
    torchSign ((flipLayer scale widxs).getD j 0) =
      (if j ∈ widxs then -torchSign (scale.getD j 0) else torchSign (scale.getD j 0)) := by
  have h := flipLayer_getD j scale widxs hj
  refine ⟨h, ?_⟩
  rw [h]
  by_cases hmem : j ∈ widxs
  · rw [if_pos hmem, torchSign_neg, torchSign_torchSign]
  · rw [if_neg hmem, torchSign_torchSign]

/-- Witness for C1: the amended statement instantiated on the layer
`[5, -3]` with selected channel `0`. -/
theorem C1_witness :
    (flipLayer [5, -3] [0]).getD 0 0 =
      (if 0 ∈ [0] then -torchSign (([5, -3] : List Int).getD 0 0)
       else torchSign (([5, -3] : List Int).getD 0 0)) ∧
    torchSign ((flipLayer [5, -3] [0]).getD 0 0) =
      (if 0 ∈ [0] then -torchSign (([5, -3] : List Int).getD 0 0)
       else torchSign (([5, -3] : List Int).getD 0 0)) :=
  C1_flip_writes_negated_signs [5, -3] [0] 0 (by decide)

/-! ## Claim C7 -/

/-- Claim C7 (confirmed): applying the per-layer sign-flip step with
the full index set `[0, C_out)` twice in succession restores the
original sign pattern of the scale vector exactly. -/
theorem C7_double_full_flip_restores_signs (scale : List Int) :
    (flipLayer (flipLayer scale (List.range scale.length))
        (List.range (flipLayer scale (List.range scale.length)).length)).map torchSign
      = scale.map torchSign := by
  rw [flipLayer_full scale]
  rw [show ((scale.map (fun x => -torchSign x)).length) = scale.length by simp]
  rw [show (List.range scale.length)
        = (List.range (scale.map (fun x => -torchSign x)).length) by simp]
  rw [flipLayer_full (scale.map (fun x => -torchSign x))]
  rw [List.map_map, List.map_map]
  apply List.map_congr_left
  intro x _
  simp only [Function.comp_apply]
  simp only [torchSign_neg, torchSign_torchSign, neg_neg]

/-! ## Claim C9 -/

/-- Claim C9 counterexample: the sign computed for an exactly-zero
scale entry during the attack is `0` (the `torch.sign` convention), not
`+1`: on the single-channel layer `[0]` with no selected channel the
recorded/new sign vector is `[0]`. -/
theorem C9_counterexample :
    flipLayer [0] [] = [0] ∧ torchSign 0 ≠ 1 := by
  decide

/-- Claim C9 (amended): an exactly-zero scale entry is assigned the
deterministic sign `0` (not `+1`), both in the recorded `origsign` and
after the flip — even when the channel is selected, since `-0 = 0` — so
the zero channel always compares equal and the similarity score remains
well-defined. -/
theorem C9_zero_entry_sign (scale : List Int) (widxs : List Nat) (j : Nat)
    (hj : j < scale.length) (h0 : scale.getD j 0 = 0) :
    torchSign (scale.getD j 0) = 0 ∧
    (flipLayer scale widxs).getD j 0 = 0 ∧
    torchSign ((flipLayer scale widxs).getD j 0) = torchSign (scale.getD j 0) := by
  have hs : torchSign (scale.getD j 0) = 0 := by rw [h0]; rfl
  have h := flipLayer_getD j scale widxs hj
  have hflip : (flipLayer scale widxs).getD j 0 = 0 := by
    rw [h, hs]
    by_cases hmem : j ∈ widxs
    · rw [if_pos hmem]; rfl
    · rw [if_neg hmem]
  exact ⟨hs, hflip, by rw [hflip, hs]; decide⟩

/-- Witness for C9: a zero scale entry that is itself selected for
flipping still carries sign `0` before and after. -/
theorem C9_witness :
    torchSign (([0] : List Int).getD 0 0) = 0 ∧
    (flipLayer [0] [0]).getD 0 0 = 0 ∧
    torchSign ((flipLayer [0] [0]).getD 0 0) = torchSign (([0] : List Int).getD 0 0) :=
  C9_zero_entry_sign [0] [0] 0 (by decide) (by decide)

/-! ## Lemmas on the index partition loop -/

theorem consume_cons (size : Nat) (rest idxs : List Nat) :
    consume (size :: rest) idxs =
      ((idxs.filter (fun i => i < size)) ::
        (consume rest ((idxs.filter (fun i => ¬ i < size)).map (fun i => i - size))).1,
       (consume rest ((idxs.filter (fun i => ¬ i < size)).map (fun i => i - size))).2) := rfl

theorem consume_fst_length (sizes idxs : List Nat) :
    (consume sizes idxs).1.length = sizes.length := by
  induction sizes generalizing idxs with
  | nil => rfl
  | cons size rest ih =>
      rw [consume_cons]
      simp [ih]

theorem filter_length_split (p : Nat → Bool) (l : List Nat) :
    (l.filter p).length + (l.filter (fun a => !(p a))).length = l.length := by
  induction l with
  | nil => rfl
  | cons a as ih =>
      cases hpa : p a <;> simp [List.filter_cons, hpa] <;> omega

theorem consume_count (sizes idxs : List Nat) :
    ((consume sizes idxs).1.map List.length).sum + (consume sizes idxs).2.length
      = idxs.length := by
  induction sizes generalizing idxs with
  | nil => simp [consume]
  | cons size rest ih =>
      rw [consume_cons]
      simp only [List.map_cons, List.sum_cons]
      rw [add_assoc, ih ((idxs.filter (fun i => ¬ i < size)).map (fun i => i - size))]
      rw [List.length_map]
      have hs := filter_length_split (fun i => decide (i < size)) idxs
      have hiff : ∀ a : Nat, (!decide (a < size)) = decide (¬ a < size) := fun a =>
        (decide_not).symm
      rw [List.filter_congr (fun a _ => hiff a)] at hs
      exact hs

theorem consume_snd_nil (sizes idxs : List Nat) (h : ∀ g ∈ idxs, g < sizes.sum) :
    (consume sizes idxs).2 = [] := by
  induction sizes generalizing idxs with
  | nil =>
      cases idxs with
      | nil => rfl
      | cons a as => exact absurd (h a (by simp)) (by simp)
  | cons size rest ih =>
      rw [consume_cons]
      apply ih
      intro g hg
      rcases List.mem_map.mp hg with ⟨g0, hg0, rfl⟩
      have hmem := List.of_mem_filter hg0
      have hge : ¬ g0 < size := by simpa using hmem
      have hlt : g0 < (size :: rest).sum := h g0 (List.mem_of_mem_filter hg0)
      simp only [List.sum_cons] at hlt
      omega

theorem inLayerRange_shift (size off c a : Nat) :
    (inLayerRange off c (a - size) && decide (¬ a < size))
      = inLayerRange (size + off) c a := by
  unfold inLayerRange
  by_cases h1 : a < size <;> by_cases h2 : off ≤ a - size <;>
    by_cases h3 : a - size < off + c <;>
      simp [h1, h2, h3] <;> omega

theorem layerOffset_zero (size : Nat) (rest : List Nat) :
    layerOffset (size :: rest) 0 = 0 := rfl

theorem layerOffset_succ (size : Nat) (rest : List Nat) (l : Nat) :
    layerOffset (size :: rest) (l + 1) = size + layerOffset rest l := by
  simp [layerOffset, List.take_succ_cons]

theorem consume_getD (sizes idxs : List Nat) (l : Nat) (hl : l < sizes.length) :
    (consume sizes idxs).1.getD l [] =
      (idxs.filter (inLayerRange (layerOffset sizes l) (sizes.getD l 0))).map
        (fun g => g - layerOffset sizes l) := by
  induction sizes generalizing idxs l with
  | nil => simp at hl
  | cons size rest ih =>
      cases l with
      | zero =>
          rw [consume_cons]
          simp only [List.getD_cons_zero, layerOffset_zero]
          have hmap :
              ((idxs.filter (inLayerRange 0 size)).map (fun g => g - 0))
                = idxs.filter (inLayerRange 0 size) := by
            simp
          rw [hmap]
          apply List.filter_congr
          intro g _
          simp [inLayerRange]
      | succ l =>
          rw [consume_cons]
          simp only [List.getD_cons_succ]
          rw [ih ((idxs.filter (fun i => ¬ i < size)).map (fun i => i - size)) l
                (by simpa using hl)]
          rw [List.filter_map, List.map_map, List.filter_filter]
          rw [layerOffset_succ]
          have hfc :
              ∀ a ∈ idxs,
                ((inLayerRange (layerOffset rest l) (rest.getD l 0) ∘ fun i => i - size) a
                    && decide (¬ a < size))
                  = inLayerRange (size + layerOffset rest l) (rest.getD l 0) a := by
            intro a _
            exact inLayerRange_shift size (layerOffset rest l) (rest.getD l 0) a
          rw [List.filter_congr hfc]
          apply List.map_congr_left
          intro a _
          simp only [Function.comp_apply]
          omega

theorem numSelected_le (total : Nat) (frac : ℚ) (hf : frac ≤ 1) :
    numSelected total frac ≤ total := by
  unfold numSelected
  rw [Int.toNat_le]
  have hmul : (total : ℚ) * frac ≤ (total : ℚ) :=
    mul_le_of_le_one_right (by positivity) hf
  calc ⌊(total : ℚ) * frac⌋ ≤ ⌊(total : ℚ)⌋ := Int.floor_le_floor hmul
    _ = (total : ℤ) := Int.floor_natCast total

/-! ## Claim C2 -/

/-- Claim C2 (confirmed): the per-layer consumption loop is a disjoint
cover of the global index space: the loop produces one local index list
per layer; layer `l` receives exactly the selected global indices lying
in its contiguous range `[offset_l, offset_l + c_l)`, translated by its
offset; every local index is inside `[0, c_l)`; the per-layer counts
sum to the number of selected indices, which equals
`floor(total_size * fraction)` whenever the selected set is the first
`floor(total_size * fraction)` entries of a permutation of
`[0, total)`. -/
theorem C2_index_partition (sizes idxs : List Nat)
    (h : ∀ g ∈ idxs, g < sizes.sum) :
    ((consume sizes idxs).1.length = sizes.length) ∧
    (∀ l, l < sizes.length →
      (consume sizes idxs).1.getD l [] =
        (idxs.filter (inLayerRange (layerOffset sizes l) (sizes.getD l 0))).map
          (fun g => g - layerOffset sizes l)) ∧
    (∀ l, l < sizes.length →
      ∀ x ∈ (consume sizes idxs).1.getD l [], x < sizes.getD l 0) ∧
    (((consume sizes idxs).1.map List.length).sum = idxs.length) ∧
    (∀ (perm : List Nat) (frac : ℚ), perm.Perm (List.range sizes.sum) → frac ≤ 1 →
      ((consume sizes (selectIdxs perm frac)).1.map List.length).sum
        = numSelected sizes.sum frac) := by
  refine ⟨consume_fst_length sizes idxs, consume_getD sizes idxs, ?_, ?_, ?_⟩
  · intro l hl x hx
    rw [consume_getD sizes idxs l hl] at hx
    rcases List.mem_map.mp hx with ⟨g, hg, rfl⟩
    have hp := List.of_mem_filter hg
    unfold inLayerRange at hp
    simp only [Bool.and_eq_true, decide_eq_true_eq] at hp
    omega
  · have hc := consume_count sizes idxs
    rw [consume_snd_nil sizes idxs h] at hc
    simpa using hc
  · intro perm frac hperm hfrac
    have hlen : perm.length = sizes.sum := by
      simpa [List.length_range] using hperm.length_eq
    have hbound : ∀ g ∈ selectIdxs perm frac, g < sizes.sum := by
      intro g hg
      have hgp : g ∈ perm := List.take_subset _ _ hg
      have := hperm.mem_iff.mp hgp
      simpa [List.mem_range] using this
    have hc := consume_count sizes (selectIdxs perm frac)
    rw [consume_snd_nil sizes (selectIdxs perm frac) hbound] at hc
    simp only [List.length_nil, add_zero] at hc
    rw [hc, selectIdxs, List.length_take, hlen]
    exact Nat.min_eq_left (numSelected_le sizes.sum frac hfrac)

/-- Witness for C2: layer sizes `[2, 3]` and selected global indices
`{4, 0}`: index `0` goes to layer 0 as local `0`, index `4` to layer 1
as local `2`, and the consumed counts sum to `2`. -/
theorem C2_witness :
    (∀ g ∈ ([4, 0] : List Nat), g < ([2, 3] : List Nat).sum) ∧
    ((consume [2, 3] [4, 0]).1.map List.length).sum = ([4, 0] : List Nat).length :=
  ⟨by decide, (C2_index_partition [2, 3] [4, 0] (by decide)).2.2.2.1⟩

/-! ## Lemmas on the flip loop -/

theorem attackLoop_cons (scale : List Int) (rest : List (List Int)) (idxs : List Nat) :
    attackLoop (scale :: rest) idxs =
      ⟨flipLayer scale (idxs.filter (fun i => i < scale.length)) ::
         (attackLoop rest ((idxs.filter (fun i => ¬ i < scale.length)).map
            (fun i => i - scale.length))).scales,
       (attackLoop rest ((idxs.filter (fun i => ¬ i < scale.length)).map
          (fun i => i - scale.length))).leftover,
       (matchCount
            ((flipLayer scale (idxs.filter (fun i => i < scale.length))).map torchSign)
            (scale.map torchSign) : ℚ) / (scale.length : ℚ)
         + (attackLoop rest ((idxs.filter (fun i => ¬ i < scale.length)).map
            (fun i => i - scale.length))).simSum⟩ := rfl

theorem attackLoop_leftover (scales : List (List Int)) (idxs : List Nat) :
    (attackLoop scales idxs).leftover = (consume (scales.map List.length) idxs).2 := by
  induction scales generalizing idxs with
  | nil => rfl
  | cons scale rest ih =>
      rw [attackLoop_cons, List.map_cons, consume_cons]
      exact ih _

/-! ## Claim C3 -/

/-- Claim C3 counterexample: with layers of sizes `2` and `3` and the
out-of-range global index `7` selected, the flip loop finishes with the
non-empty leftover pool `[2]`, and still returns a well-defined
similarity accumulator (`2`, both layers untouched) — there is no check
and no error: the leftover index is silently ignored. -/
theorem C3_counterexample :
    (attackLoop [[1, 1], [1, 1, 1]] [7]).leftover = [2] ∧
    (attackLoop [[1, 1], [1, 1, 1]] [7]).leftover ≠ [] ∧
    (attackLoop [[1, 1], [1, 1, 1]] [7]).simSum = 2 := by
  refine ⟨by decide, by decide, ?_⟩
  norm_num [attackLoop_cons, attackLoop, flipLayer, flipAux, torchSign, matchCount]

/-- Claim C3 (amended): when every selected global index lies inside
the global range `[0, total)` — as is always the case for indices drawn
from `torch.randperm(total_weight_size)` — the index pool is empty
after the per-layer flip loop has processed all layers.  The code
performs no check: an out-of-range index would be dropped silently (see
the counterexample), not raised as a fatal error. -/
theorem C3_pool_empty_when_in_range (scales : List (List Int)) (idxs : List Nat)
    (h : ∀ g ∈ idxs, g < (scales.map List.length).sum) :
    (attackLoop scales idxs).leftover = [] := by
  rw [attackLoop_leftover]
  exact consume_snd_nil (scales.map List.length) idxs h

/-- Witness for C3: both in-range indices of a 2+3-channel model are
fully consumed. -/
theorem C3_witness :
    (∀ g ∈ ([4, 0] : List Nat), g < (([[1, 1], [1, 1, 1]] : List (List Int)).map
        List.length).sum) ∧
    (attackLoop [[1, 1], [1, 1, 1]] [4, 0]).leftover = [] :=
  ⟨by decide, C3_pool_empty_when_in_range [[1, 1], [1, 1, 1]] [4, 0] (by decide)⟩

/-! ## Claim C4 -/

/-- Claim C4 counterexample: the index selection
(`torch.randperm(total_weight_size)` then a prefix slice) accepts no
seed, so its output is not determined by `total_size` and `fraction`:
two legitimate outcomes of `randperm(4)` with the same
`fraction = 1/2` yield different index sets. -/
theorem C4_counterexample :
    ([0, 1, 2, 3] : List Nat).Perm (List.range 4) ∧
    ([3, 2, 1, 0] : List Nat).Perm (List.range 4) ∧
    selectIdxs [0, 1, 2, 3] (1 / 2) ≠ selectIdxs [3, 2, 1, 0] (1 / 2) := by
  refine ⟨by decide, by decide, ?_⟩
  intro hcontra
  have h4 : ((4 : Nat) : ℚ) * (1 / 2) = 2 := by norm_num
  have h : numSelected 4 (1 / 2) = 2 := by
    unfold numSelected
    rw [h4]
    decide
  have hlen1 : ([0, 1, 2, 3] : List Nat).length = 4 := rfl
  have hlen2 : ([3, 2, 1, 0] : List Nat).length = 4 := rfl
  rw [selectIdxs, selectIdxs, hlen1, hlen2, h] at hcontra
  exact absurd hcontra (by decide)

/-- Claim C4 (amended): the selection takes no seed; it is the prefix
of a fresh unseeded `torch.randperm(total_weight_size)`.  As a pure
function of the permutation it is reproducible only when the
permutation is fixed, and then it is a duplicate-free subset of
`[0, total)` of size exactly `floor(total_size * fraction)`. -/
theorem C4_selection_from_permutation (total : Nat) (perm : List Nat) (frac : ℚ)
    (hperm : perm.Perm (List.range total)) (hf : frac ≤ 1) :
    (selectIdxs perm frac).length = numSelected total frac ∧
    (selectIdxs perm frac).Nodup ∧
    (∀ x ∈ selectIdxs perm frac, x < total) := by
  have hlen : perm.length = total := by simpa using hperm.length_eq
  refine ⟨?_, ?_, ?_⟩
  · rw [selectIdxs, List.length_take, hlen]
    exact Nat.min_eq_left (numSelected_le total frac hf)
  · exact (List.take_sublist _ _).nodup (hperm.nodup_iff.mpr (List.nodup_range total))
  · intro x hx
    have hxp := hperm.mem_iff.mp (List.take_subset _ _ hx)
    simpa using hxp

/-- Witness for C4: the permutation `[0, 1, 2, 3]` of `[0, 4)` with
fraction `1/2`. -/
theorem C4_witness :
    (([0, 1, 2, 3] : List Nat).Perm (List.range 4) ∧ (1 / 2 : ℚ) ≤ 1) ∧
    ((selectIdxs [0, 1, 2, 3] (1 / 2)).length = numSelected 4 (1 / 2) ∧
     (selectIdxs [0, 1, 2, 3] (1 / 2)).Nodup ∧
     (∀ x ∈ selectIdxs [0, 1, 2, 3] (1 / 2), x < 4)) :=
  ⟨⟨by decide, by norm_num⟩,
    C4_selection_from_permutation 4 [0, 1, 2, 3] (1 / 2) (by decide) (by norm_num)⟩

/-! ## Claim C6 -/

theorem attackLoop_simSum (scales : List (List Int)) (idxs : List Nat) :
    (attackLoop scales idxs).simSum =
      ((scales.zip (consume (scales.map List.length) idxs).1).map
        (fun p => perLayerFlipFrac p.1 p.2)).sum := by
  induction scales generalizing idxs with
  | nil => rfl
  | cons scale rest ih =>
      rw [attackLoop_cons, List.map_cons, consume_cons]
      simp only [List.zip_cons_cons, List.map_cons, List.sum_cons]
      rw [ih]
      rfl

/-- Claim C6 (confirmed): the signature similarity reported after the
attack (`sim / len(conv_weights_to_reset)`) equals the arithmetic mean,
over the attacked layers, of the per-layer fraction of channels whose
scale sign after the flip equals the scale sign recorded immediately
before the flip, each layer flipped at the local channels the global
partition assigns to it. -/
theorem C6_similarity_is_mean_of_layer_fractions
    (scales : List (List Int)) (idxs : List Nat) :
    attackSim scales idxs = specSim scales idxs := by
  unfold attackSim specSim
  rw [attackLoop_simSum]

/-! ## Lemmas on the parameter setup -/

theorem freezeAll_cons (l : ModelLayer) (ls : List ModelLayer) :
    freezeAll (l :: ls) =
      (⟨⟨l.convWeight.data, false⟩, ⟨l.bnWeight.data, false⟩, ⟨l.bnBias.data, false⟩,
        l.passport⟩ : ModelLayer) :: freezeAll ls := rfl

theorem loadPassportParams_cons (l : ModelLayer) (ls : List ModelLayer)
    (p : List Int × List Int) (ps : List (List Int × List Int)) :
    loadPassportParams (l :: ls) (p :: ps) =
      (if l.passport then
        { l with bnWeight := ⟨p.1, true⟩, bnBias := ⟨p.2, true⟩ }
       else l) :: loadPassportParams ls ps := rfl

theorem zeroBiasStep_cons (l : ModelLayer) (ls : List ModelLayer) :
    zeroBiasStep (l :: ls) =
      (if l.passport then
        { l with
          bnWeight := ⟨l.bnWeight.data, true⟩,
          bnBias := ⟨l.bnBias.data.map (fun _ => 0), true⟩ }
       else l) :: zeroBiasStep ls := rfl

theorem attackSetup_cons (l : ModelLayer) (ls : List ModelLayer)
    (p : List Int × List Int) (ps : List (List Int × List Int)) :
    attackSetup (l :: ls) (p :: ps) =
      (if l.passport then
        (⟨⟨l.convWeight.data, false⟩, ⟨p.1, true⟩,
          ⟨p.2.map (fun _ => 0), true⟩, true⟩ : ModelLayer)
       else
        ⟨⟨l.convWeight.data, false⟩, ⟨l.bnWeight.data, false⟩,
          ⟨l.bnBias.data, false⟩, false⟩) :: attackSetup ls ps := by
  unfold attackSetup
  rw [freezeAll_cons, loadPassportParams_cons]
  by_cases hp : l.passport
  · simp [hp, zeroBiasStep_cons]
  · simp [hp, zeroBiasStep_cons]

theorem attackSetup_length (m : List ModelLayer) (pp : List (List Int × List Int)) :
    (attackSetup m pp).length = m.length := by
  induction m generalizing pp with
  | nil => simp [attackSetup, freezeAll, zeroBiasStep, loadPassportParams]
  | cons l ls ih =>
      cases pp with
      | nil => simp [attackSetup, freezeAll, zeroBiasStep, loadPassportParams]
      | cons p ps =>
          rw [attackSetup_cons]
          simp [ih]

theorem attackSetup_getD (m : List ModelLayer) (pp : List (List Int × List Int))
    (hlen : pp.length = m.length) (i : Nat) (hi : i < m.length) :
    (attackSetup m pp).getD i default =
      (if (m.getD i default).passport then
        (⟨⟨(m.getD i default).convWeight.data, false⟩,
          ⟨(pp.getD i ([], [])).1, true⟩,
          ⟨(pp.getD i ([], [])).2.map (fun _ => 0), true⟩, true⟩ : ModelLayer)
       else
        ⟨⟨(m.getD i default).convWeight.data, false⟩,
          ⟨(m.getD i default).bnWeight.data, false⟩,
          ⟨(m.getD i default).bnBias.data, false⟩, false⟩) := by
  induction m generalizing pp i with
  | nil => simp at hi
  | cons l ls ih =>
      cases pp with
      | nil => simp at hlen
      | cons p ps =>
          have hlen' : ps.length = ls.length := by simpa using hlen
          rw [attackSetup_cons]
          cases i with
          | zero => simp only [List.getD_cons_zero]
          | succ i =>
              simp only [List.getD_cons_succ]
              exact ih ps hlen' i (by simpa using hi)

/-! ## Claim C5 -/

/-- Claim C5 (confirmed): in the attack setup, the `bn.bias` vector of
every passport-bearing layer is set to all zeros
(`bn.bias.data.zero_()`, executed before the attack indices are even
drawn — the setup takes no index input, so the zeroing cannot depend on
the selected indices), and the bias of every non-passport layer keeps
its original values. -/
theorem C5_passport_bias_zeroed (m : List ModelLayer)
    (pp : List (List Int × List Int)) (hlen : pp.length = m.length)
    (i : Nat) (hi : i < m.length) :
    ((m.getD i default).passport = true →
      ∀ x ∈ ((attackSetup m pp).getD i default).bnBias.data, x = 0) ∧
    ((m.getD i default).passport = false →
      ((attackSetup m pp).getD i default).bnBias.data
        = (m.getD i default).bnBias.data) := by
  constructor
  · intro hp
    rw [attackSetup_getD m pp hlen i hi, if_pos hp]
    intro x hx
    rcases List.mem_map.mp hx with ⟨y, _, rfl⟩
    rfl
  · intro hp
    rw [attackSetup_getD m pp hlen i hi, if_neg (by rw [hp]; simp)]

/-- Witness for C5: a two-layer model (first passport-bearing, second
not): the first layer's bias becomes all zero, the second keeps its
values. -/
theorem C5_witness :
    (([([7], [8]), ([], [])] : List (List Int × List Int)).length
        = ([⟨⟨[1], true⟩, ⟨[2], true⟩, ⟨[3], true⟩, true⟩,
            ⟨⟨[4], true⟩, ⟨[5], true⟩, ⟨[6], true⟩, false⟩] :
              List ModelLayer).length ∧ (0 : Nat) < 2) ∧
    ((([⟨⟨[1], true⟩, ⟨[2], true⟩, ⟨[3], true⟩, true⟩,
        ⟨⟨[4], true⟩, ⟨[5], true⟩, ⟨[6], true⟩, false⟩] :
          List ModelLayer).getD 0 default).passport = true →
      ∀ x ∈ ((attackSetup
          [⟨⟨[1], true⟩, ⟨[2], true⟩, ⟨[3], true⟩, true⟩,
           ⟨⟨[4], true⟩, ⟨[5], true⟩, ⟨[6], true⟩, false⟩]
          [([7], [8]), ([], [])]).getD 0 default).bnBias.data, x = 0) :=
  ⟨⟨by decide, by decide⟩,
    (C5_passport_bias_zeroed
      [⟨⟨[1], true⟩, ⟨[2], true⟩, ⟨[3], true⟩, true⟩,
       ⟨⟨[4], true⟩, ⟨[5], true⟩, ⟨[6], true⟩, false⟩]
      [([7], [8]), ([], [])] (by decide) 0 (by decide)).1⟩

/-! ## Lemmas on fine-tuning -/

theorem tensorFrame_rfl (t : PTensor) : tensorFrame t t := ⟨rfl, fun _ => rfl⟩

theorem tensorFrame_trans {t u v : PTensor} (h1 : tensorFrame t u)
    (h2 : tensorFrame u v) : tensorFrame t v := by
  refine ⟨h2.1.trans h1.1, fun hf => ?_⟩
  have hu := h1.2 hf
  have hu' : u.requiresGrad = false := by rw [h1.1]; exact hf
  rw [h2.2 hu', hu]

theorem layerFrame_rfl (l : ModelLayer) : layerFrame l l :=
  ⟨rfl, tensorFrame_rfl _, tensorFrame_rfl _, tensorFrame_rfl _⟩

theorem layerFrame_trans {l u v : ModelLayer} (h1 : layerFrame l u)
    (h2 : layerFrame u v) : layerFrame l v :=
  ⟨h2.1.trans h1.1, tensorFrame_trans h1.2.1 h2.2.1,
   tensorFrame_trans h1.2.2.1 h2.2.2.1, tensorFrame_trans h1.2.2.2 h2.2.2.2⟩

theorem sgdTensor_frame (t : PTensor) (g : List Int) :
    tensorFrame t (sgdTensor t g) := by
  unfold tensorFrame sgdTensor
  cases h : t.requiresGrad
  · simp [h]
  · simp [h]

theorem trainStep_nil (gs : List LayerGrad) : trainStep [] gs = [] := rfl

theorem trainStep_nil_grads (l : ModelLayer) (ls : List ModelLayer) :
    trainStep (l :: ls) [] = l :: ls := rfl

theorem trainStep_cons (l : ModelLayer) (ls : List ModelLayer)
    (g : LayerGrad) (gs : List LayerGrad) :
    trainStep (l :: ls) (g :: gs) =
      (⟨sgdTensor l.convWeight g.convGrad, sgdTensor l.bnWeight g.bnWeightGrad,
        sgdTensor l.bnBias g.bnBiasGrad, l.passport⟩ : ModelLayer) :: trainStep ls gs := rfl

theorem trainStep_length (m : List ModelLayer) (gs : List LayerGrad) :
    (trainStep m gs).length = m.length := by
  induction m generalizing gs with
  | nil => rfl
  | cons l ls ih =>
      cases gs with
      | nil => rfl
      | cons g gsr =>
          rw [trainStep_cons]
          simp [ih]

theorem trainStep_frame (m : List ModelLayer) (gs : List LayerGrad) (i : Nat)
    (hi : i < m.length) :
    layerFrame (m.getD i default) ((trainStep m gs).getD i default) := by
  induction m generalizing gs i with
  | nil => simp at hi
  | cons l ls ih =>
      cases gs with
      | nil =>
          rw [trainStep_nil_grads]
          exact layerFrame_rfl _
      | cons g gsr =>
          cases i with
          | zero =>
              rw [trainStep_cons]
              simp only [List.getD_cons_zero]
              exact ⟨rfl, sgdTensor_frame _ _, sgdTensor_frame _ _, sgdTensor_frame _ _⟩
          | succ i =>
              rw [trainStep_cons]
              simp only [List.getD_cons_succ]
              exact ih gsr i (by simpa using hi)

theorem trainRun_cons (m : List ModelLayer) (gs : List LayerGrad)
    (gss : List (List LayerGrad)) :
    trainRun m (gs :: gss) = trainRun (trainStep m gs) gss := rfl

theorem trainRun_length (m : List ModelLayer) (gss : List (List LayerGrad)) :
    (trainRun m gss).length = m.length := by
  induction gss generalizing m with
  | nil => rfl
  | cons gs gss ih =>
      rw [trainRun_cons, ih, trainStep_length]

theorem trainRun_frame (m : List ModelLayer) (gss : List (List LayerGrad)) (i : Nat)
    (hi : i < m.length) :
    layerFrame (m.getD i default) ((trainRun m gss).getD i default) := by
  induction gss generalizing m with
  | nil => exact layerFrame_rfl _
  | cons gs gss ih =>
      rw [trainRun_cons]
      have h1 := trainStep_frame m gs i hi
      have hi' : i < (trainStep m gs).length := by
        rw [trainStep_length]; exact hi
      exact layerFrame_trans h1 (ih (trainStep m gs) hi')

/-! ## Claim C10 -/

/-- Claim C10 (confirmed): after the `run_attack_2` setup, a layer's
convolution weight has `requires_grad == False`, and its `bn.weight` /
`bn.bias` have `requires_grad == True` exactly when the layer is
passport-bearing; consequently, over any sequence of fine-tuning
optimizer steps with arbitrary gradients, the convolution weight keeps
its loaded value, and a non-passport layer is left entirely
unchanged — only the passport layers' affine parameters can move. -/
theorem C10_only_passport_affine_trainable (m : List ModelLayer)
    (pp : List (List Int × List Int)) (hlen : pp.length = m.length)
    (gss : List (List LayerGrad)) (i : Nat) (hi : i < m.length) :
    ((attackSetup m pp).getD i default).convWeight.requiresGrad = false ∧
    ((attackSetup m pp).getD i default).bnWeight.requiresGrad
      = (m.getD i default).passport ∧
    ((attackSetup m pp).getD i default).bnBias.requiresGrad
      = (m.getD i default).passport ∧
    ((trainRun (attackSetup m pp) gss).getD i default).convWeight
      = ((attackSetup m pp).getD i default).convWeight ∧
    ((m.getD i default).passport = false →
      (trainRun (attackSetup m pp) gss).getD i default
        = (attackSetup m pp).getD i default) := by
  have hset := attackSetup_getD m pp hlen i hi
  have hi' : i < (attackSetup m pp).length := by
    rw [attackSetup_length]; exact hi
  have hframe := trainRun_frame (attackSetup m pp) gss i hi'
  have hconv : ((attackSetup m pp).getD i default).convWeight.requiresGrad = false := by
    rw [hset]
    by_cases hp : (m.getD i default).passport
    · rw [if_pos hp]
    · rw [if_neg hp]
  have hbnw : ((attackSetup m pp).getD i default).bnWeight.requiresGrad
      = (m.getD i default).passport := by
    rw [hset]
    by_cases hp : (m.getD i default).passport
    · rw [if_pos hp, hp]
    · rw [if_neg hp]
      simp only [Bool.not_eq_true] at hp
      rw [hp]
  have hbnb : ((attackSetup m pp).getD i default).bnBias.requiresGrad
      = (m.getD i default).passport := by
    rw [hset]
    by_cases hp : (m.getD i default).passport
    · rw [if_pos hp, hp]
    · rw [if_neg hp]
      simp only [Bool.not_eq_true] at hp
      rw [hp]
  refine ⟨hconv, hbnw, hbnb, hframe.2.1.2 hconv, fun hp => ?_⟩
  have hwflag : ((attackSetup m pp).getD i default).bnWeight.requiresGrad = false := by
    rw [hbnw, hp]
  have hbflag : ((attackSetup m pp).getD i default).bnBias.requiresGrad = false := by
    rw [hbnb, hp]
  have hc := hframe.2.1.2 hconv
  have hw := hframe.2.2.1.2 hwflag
  have hb := hframe.2.2.2.2 hbflag
  have hpass := hframe.1
  calc (trainRun (attackSetup m pp) gss).getD i default
      = ⟨((trainRun (attackSetup m pp) gss).getD i default).convWeight,
         ((trainRun (attackSetup m pp) gss).getD i default).bnWeight,
         ((trainRun (attackSetup m pp) gss).getD i default).bnBias,
         ((trainRun (attackSetup m pp) gss).getD i default).passport⟩ := rfl
    _ = ⟨((attackSetup m pp).getD i default).convWeight,
         ((attackSetup m pp).getD i default).bnWeight,
         ((attackSetup m pp).getD i default).bnBias,
         ((attackSetup m pp).getD i default).passport⟩ := by
          rw [hc, hw, hb, hpass]
    _ = (attackSetup m pp).getD i default := rfl

/-- Witness for C10: the two-layer model of the C5 witness with one
optimizer step of all-ones gradients: the non-passport layer (index 1)
ends the run exactly as the setup left it. -/
theorem C10_witness :
    (([([7], [8]), ([], [])] : List (List Int × List Int)).length
        = ([⟨⟨[1], true⟩, ⟨[2], true⟩, ⟨[3], true⟩, true⟩,
            ⟨⟨[4], true⟩, ⟨[5], true⟩, ⟨[6], true⟩, false⟩] :
              List ModelLayer).length ∧ (1 : Nat) < 2) ∧
    ((([⟨⟨[1], true⟩, ⟨[2], true⟩, ⟨[3], true⟩, true⟩,
        ⟨⟨[4], true⟩, ⟨[5], true⟩, ⟨[6], true⟩, false⟩] :
          List ModelLayer).getD 1 default).passport = false →
      (trainRun (attackSetup
          [⟨⟨[1], true⟩, ⟨[2], true⟩, ⟨[3], true⟩, true⟩,
           ⟨⟨[4], true⟩, ⟨[5], true⟩, ⟨[6], true⟩, false⟩]
          [([7], [8]), ([], [])])
          [[⟨[1], [1], [1]⟩, ⟨[1], [1], [1]⟩]]).getD 1 default
        = (attackSetup
          [⟨⟨[1], true⟩, ⟨[2], true⟩, ⟨[3], true⟩, true⟩,
           ⟨⟨[4], true⟩, ⟨[5], true⟩, ⟨[6], true⟩, false⟩]
          [([7], [8]), ([], [])]).getD 1 default) :=
  ⟨⟨by decide, by decide⟩,
    (C10_only_passport_affine_trainable
      [⟨⟨[1], true⟩, ⟨[2], true⟩, ⟨[3], true⟩, true⟩,
       ⟨⟨[4], true⟩, ⟨[5], true⟩, ⟨[6], true⟩, false⟩]
      [([7], [8]), ([], [])] (by decide)
      [[⟨[1], [1], [1]⟩, ⟨[1], [1], [1]⟩]] 1 (by decide)).2.2.2.2⟩

/-! ## Lemmas on the weight transplant -/

theorem strictLoadModel_cons (c : CloneBlock) (cs : List CloneBlock)
    (s : SourceBlock) (ss : List SourceBlock) :
    strictLoadModel (c :: cs) (s :: ss) =
      (match strictLoadBlock s, strictLoadModel cs ss with
       | some c', some rest => some (c' :: rest)
       | _, _ => none) := rfl

theorem strictLoadModel_some_length (cs : List CloneBlock) (ss : List SourceBlock)
    (r : List CloneBlock) (h : strictLoadModel cs ss = some r) :
    r.length = cs.length := by
  induction cs generalizing ss r with
  | nil =>
      cases ss with
      | nil => simp [strictLoadModel] at h; simp [← h]
      | cons s ss => simp [strictLoadModel] at h
  | cons c cs ih =>
      cases ss with
      | nil => simp [strictLoadModel] at h
      | cons s ss =>
          rw [strictLoadModel_cons] at h
          cases hsb : strictLoadBlock s with
          | none => rw [hsb] at h; simp at h
          | some c' =>
              cases hsm : strictLoadModel cs ss with
              | none => rw [hsb, hsm] at h; simp at h
              | some rest =>
                  rw [hsb, hsm] at h
                  simp only [Option.some.injEq] at h
                  rw [← h]
                  simp [ih ss rest hsm]

theorem strictLoadModel_some_getD (cs : List CloneBlock) (ss : List SourceBlock)
    (r : List CloneBlock) (h : strictLoadModel cs ss = some r) (i : Nat)
    (hi : i < cs.length) :
    r.getD i default = transferBlock (cs.getD i default) (ss.getD i default) := by
  induction cs generalizing ss r i with
  | nil => simp at hi
  | cons c cs ih =>
      cases ss with
      | nil => simp [strictLoadModel] at h
      | cons s ss =>
          rw [strictLoadModel_cons] at h
          cases hsb : strictLoadBlock s with
          | none => rw [hsb] at h; simp at h
          | some c' =>
              cases hsm : strictLoadModel cs ss with
              | none => rw [hsb, hsm] at h; simp at h
              | some rest =>
                  rw [hsb, hsm] at h
                  simp only [Option.some.injEq] at h
                  subst h
                  cases i with
                  | zero =>
                      simp only [List.getD_cons_zero]
                      cases s with
                      | normal conv w b mean =>
                          simp [strictLoadBlock] at hsb
                          simp [transferBlock, strictLoadBlock, ← hsb]
                      | passport conv mean sc bs =>
                          simp [strictLoadBlock] at hsb
                  | succ i =>
                      simp only [List.getD_cons_succ]
                      exact ih ss rest hsm i (by simpa using hi)

theorem zipWith_transferBlock_getD (cs : List CloneBlock) (ss : List SourceBlock)
    (hlen : cs.length = ss.length) (i : Nat) (hi : i < cs.length) :
    (List.zipWith transferBlock cs ss).getD i default
      = transferBlock (cs.getD i default) (ss.getD i default) := by
  induction cs generalizing ss i with
  | nil => simp at hi
  | cons c cs ih =>
      cases ss with
      | nil => simp at hlen
      | cons s ss =>
          cases i with
          | zero => simp only [List.zipWith_cons_cons, List.getD_cons_zero]
          | succ i =>
              simp only [List.zipWith_cons_cons, List.getD_cons_succ]
              exact ih ss (by simpa using hlen) i (by simpa using hi)

theorem transferLearningLoad_getD (cs : List CloneBlock) (ss : List SourceBlock)
    (hlen : cs.length = ss.length) (i : Nat) (hi : i < cs.length) :
    (transferLearningLoad cs ss).getD i default
      = transferBlock (cs.getD i default) (ss.getD i default) := by
  unfold transferLearningLoad
  cases h : strictLoadModel cs ss with
  | some r => exact strictLoadModel_some_getD cs ss r h i hi
  | none => exact zipWith_transferBlock_getD cs ss hlen i hi

theorem transferLearningLoad_length (cs : List CloneBlock) (ss : List SourceBlock)
    (hlen : cs.length = ss.length) :
    (transferLearningLoad cs ss).length = cs.length := by
  unfold transferLearningLoad
  cases h : strictLoadModel cs ss with
  | some r => exact strictLoadModel_some_length cs ss r h
  | none => simp [List.length_zipWith, hlen]

/-! ## Claim C8 -/

/-- Claim C8 (confirmed): the transplant of `transfer_learning` always
yields a clone model (the strict-load exception is caught, so the
mismatch is recoverable, not fatal); whenever the source block is
passport-bearing — which is exactly when its per-module strict load
fails — the result holds the non-strict copy (conv weight, running
stats from the source) with the affine pair explicitly reconstructed:
`bn.weight = get_scale()`, `bn.bias = get_bias()`; a normal source
block is copied in full. -/
theorem C8_strict_load_failure_recovered (cs : List CloneBlock)
    (ss : List SourceBlock) (hlen : cs.length = ss.length) (i : Nat)
    (hi : i < cs.length) :
    (transferLearningLoad cs ss).length = cs.length ∧
    ((ss.getD i default).isPassport = true →
      ((transferLearningLoad cs ss).getD i default).bnWeight
          = (ss.getD i default).getScale ∧
      ((transferLearningLoad cs ss).getD i default).bnBias
          = (ss.getD i default).getBias) ∧
    (∀ conv w b mean : List Int,
      ss.getD i default = SourceBlock.normal conv w b mean →
      (transferLearningLoad cs ss).getD i default = ⟨conv, w, b, mean⟩) := by
  refine ⟨transferLearningLoad_length cs ss hlen, ?_, ?_⟩
  · intro hpass
    cases hsd : ss.getD i default with
    | normal conv w b mean => rw [hsd] at hpass; simp [SourceBlock.isPassport] at hpass
    | passport conv mean sc bs =>
        rw [transferLearningLoad_getD cs ss hlen i hi, hsd]
        exact ⟨rfl, rfl⟩
  · intro conv w b mean hs
    rw [transferLearningLoad_getD cs ss hlen i hi, hs]
    rfl

/-- Witness for C8: a single passport-bearing source block: the clone's
affine pair is reconstructed from the source's scale/bias values. -/
theorem C8_witness :
    (([⟨[1], [2], [3], [4]⟩] : List CloneBlock).length
        = ([SourceBlock.passport [9] [10] [11] [12]] : List SourceBlock).length ∧
      (0 : Nat) < 1) ∧
    ((([SourceBlock.passport [9] [10] [11] [12]] :
          List SourceBlock).getD 0 default).isPassport = true →
      ((transferLearningLoad [⟨[1], [2], [3], [4]⟩]
          [SourceBlock.passport [9] [10] [11] [12]]).getD 0 default).bnWeight
        = (([SourceBlock.passport [9] [10] [11] [12]] :
            List SourceBlock).getD 0 default).getScale ∧
      ((transferLearningLoad [⟨[1], [2], [3], [4]⟩]
          [SourceBlock.passport [9] [10] [11] [12]]).getD 0 default).bnBias
        = (([SourceBlock.passport [9] [10] [11] [12]] :
            List SourceBlock).getD 0 default).getBias) :=
  ⟨⟨by decide, by decide⟩,
    (C8_strict_load_failure_recovered [⟨[1], [2], [3], [4]⟩]
      [SourceBlock.passport [9] [10] [11] [12]] (by decide) 0 (by decide)).2.1⟩

end PassportAttack
